import Mathlib

/-!
Verification of the crossword CSP solver (`crossword_/generate.py`).

The solver data model and operations are embedded shallowly: the mutable
dictionary `self.domains` becomes a function from variables to word lists that
is threaded explicitly through every operation, Python strings become lists of
characters, and the two worklist loops (`ac3` and the candidate loop inside
`backtrack`) become fuel-indexed recursive functions returning `Option` so
that running out of fuel is distinguished from every genuine outcome.
-/

namespace CrosswordCSP

/-- A word is a Python string, viewed as its list of characters. -/
abbrev Word := List Char

/-- Modelled from the spec: a slot (`Variable` in `crossword.py`, which is not
under `src/`) is identified by start row, start column, direction and length. -/
structure Variable where
  i : Nat
  j : Nat
  direction : Bool
  length : Nat
deriving DecidableEq

/-- Modelled from the spec: the puzzle model built by `crossword.py` (not under
`src/`): the set of slots, the word list, and the precomputed overlap table
giving, for an ordered pair of slots, either a pair of character offsets or
the absence of an overlap. -/
structure Crossword where
  vars : List Variable
  words : List Word
  overlaps : Variable → Variable → Option (Nat × Nat)

/-- Modelled from the spec: well-formedness of the puzzle model. A slot never
overlaps itself, and the overlap table is symmetric with the offsets swapped
(character i of X equals character j of Y is the same constraint read in
either direction). -/
def WFCrossword (cw : Crossword) : Prop :=
  (∀ x ∈ cw.vars, cw.overlaps x x = none) ∧
  (∀ x ∈ cw.vars, ∀ y ∈ cw.vars,
    cw.overlaps y x = (cw.overlaps x y).map (fun p => (p.2, p.1)))

instance (cw : Crossword) : Decidable (WFCrossword cw) := by
  unfold WFCrossword; infer_instance

/-- Modelled from the spec: `crossword.neighbors(v)` returns the slots other
than `v` that share an overlap with it. -/
def neighbors (cw : Crossword) (v : Variable) : List Variable :=
  cw.vars.filter (fun u => u != v && (cw.overlaps u v).isSome)

/-- The domain store `self.domains`: each variable maps to its current list of
candidate words. -/
abbrev Domains := Variable → List Word

/-- Pointwise update of the store at one variable. -/
def updateD (d : Domains) (x : Variable) (ws : List Word) : Domains :=
  fun v => if v = x then ws else d v

/-- `self.domains` as built by `CrosswordCreator.__init__`: every variable
starts with a copy of the full word list. -/
def initialDomains (cw : Crossword) : Domains :=
  fun _ => cw.words

/-- Python `word[k]`: character access.  Out-of-range access raises in Python;
all accesses made by the solver use overlap offsets that are in range for
node-consistent words, so a default character stands in for the error case. -/
def charAt (w : Word) (k : Nat) : Char :=
  w.getD k ' '

/-- `enforce_node_consistency`: for every variable, remove from its domain the
words whose length differs from the variable length. -/
def enforce_node_consistency (d : Domains) : Domains :=
  fun v => (d v).filter (fun w => w.length == v.length)

/-- The inner loop of `revise`: word `wx` keeps its place in the domain of `x`
iff some word `wy` in the domain of `y` matches it at the overlap `(oi, oj)`. -/
def hasSupport (wx : Word) (oi oj : Nat) (domY : List Word) : Bool :=
  domY.any (fun wy => charAt wx oi == charAt wy oj)

/-- `CrosswordCreator.revise(x, y)`: if the overlap table has no entry for
`(x, y)` this is a no-op returning false; otherwise the words of `domain(x)`
without support in `domain(y)` are removed, and the flag tells whether at
least one word was removed. -/
def revise (cw : Crossword) (d : Domains) (x y : Variable) : Bool × Domains :=
  match cw.overlaps x y with
  | none => (false, d)
  | some (oi, oj) =>
    let kept := (d x).filter (fun wx => hasSupport wx oi oj (d y))
    (kept.length != (d x).length, updateD d x kept)

/-- An arc is an ordered pair of variables, revised left against right. -/
abbrev Arc := Variable × Variable

/-- The arcs enqueued after a successful revision of `(x, y)`: one arc
`(neighbour, x)` for every neighbour of `x` other than `y`. -/
def enqueueArcs (cw : Crossword) (x y : Variable) : List Arc :=
  ((neighbors cw x).filter (fun n => n != y)).map (fun n => (n, x))

/-- `CrosswordCreator.get_all_arcs`: every ordered pair of distinct variables
that has an overlap entry. -/
def get_all_arcs (cw : Crossword) : List Arc :=
  cw.vars.flatMap (fun x =>
    (cw.vars.filter (fun y => x != y && (cw.overlaps x y).isSome)).map
      (fun y => (x, y)))

/-- One iteration of the `while` loop of `ac3`: pop the last arc (`list.pop`
pops the end), revise it, and either finish (empty worklist gives success, an
emptied domain gives failure) or continue with the updated state. -/
def ac3Step (cw : Crossword) (d : Domains) (arcs : List Arc) :
    (Domains × List Arc) ⊕ (Bool × Domains) :=
  match arcs.getLast? with
  | none => Sum.inr (true, d)
  | some (x, y) =>
    let rest := arcs.dropLast
    let r := revise cw d x y
    if r.1 then
      if (r.2 x).length = 0 then Sum.inr (false, r.2)
      else Sum.inl (r.2, rest ++ enqueueArcs cw x y)
    else Sum.inl (r.2, rest)

/-- The `while` loop of `ac3`, indexed by fuel; `none` means the fuel ran out
before the loop finished. -/
def ac3Fuel (cw : Crossword) : Nat → Domains → List Arc → Option (Bool × Domains)
  | 0, _, _ => none
  | fuel + 1, d, arcs =>
    match ac3Step cw d arcs with
    | Sum.inr res => some res
    | Sum.inl (d', arcs') => ac3Fuel cw fuel d' arcs'

/-- The states of the `ac3` loop reachable from a given one by continuing
iterations (the loop is deterministic, so this is exactly the trajectory of
the run). -/
inductive Reaches (cw : Crossword) : Domains → List Arc → Domains → List Arc → Prop
  | refl (d : Domains) (arcs : List Arc) : Reaches cw d arcs d arcs
  | step {d : Domains} {arcs : List Arc} {d1 : Domains} {arcs1 : List Arc}
      {d2 : Domains} {arcs2 : List Arc} :
      ac3Step cw d arcs = Sum.inl (d1, arcs1) →
      Reaches cw d1 arcs1 d2 arcs2 → Reaches cw d arcs d2 arcs2

/-- Arc consistency of `x` with respect to `y` in a store: if the pair has an
overlap, every word in the domain of `x` has a supporting word in the domain
of `y`. -/
def ArcOK (cw : Crossword) (d : Domains) (x y : Variable) : Prop :=
  ∀ oi oj, cw.overlaps x y = some (oi, oj) → ∀ wx ∈ d x, hasSupport wx oi oj (d y) = true

/-- The state of the `ac3` loop at the iteration that returns (the loop with
the result of that last iteration discarded). -/
def ac3RunEnd (cw : Crossword) : Nat → Domains → List Arc →
    Option (Domains × List Arc)
  | 0, _, _ => none
  | fuel + 1, d, arcs =>
    match ac3Step cw d arcs with
    | Sum.inr _ => some (d, arcs)
    | Sum.inl (d1, arcs1) => ac3RunEnd cw fuel d1 arcs1

/-- The initial worklist of `ac3`: the full arc set when called with `None`,
otherwise a copy of the caller-supplied list. -/
def initialWorklist (cw : Crossword) (arcs : Option (List Arc)) : List Arc :=
  match arcs with
  | none => get_all_arcs cw
  | some l => l

/-- `CrosswordCreator.ac3`. -/
def ac3 (cw : Crossword) (fuel : Nat) (d : Domains) (arcs : Option (List Arc)) :
    Option (Bool × Domains) :=
  ac3Fuel cw fuel d (initialWorklist cw arcs)

/-- An assignment is a Python dict from variables to words, embedded as an
association list in insertion order. -/
abbrev Assignment := List (Variable × Word)

/-- Dict lookup. -/
def lookupA (a : Assignment) (v : Variable) : Option Word :=
  match a with
  | [] => none
  | (u, w) :: rest => if v = u then some w else lookupA rest v

/-- `assignment.copy()` followed by `copy[v] = w`. -/
def insertA (a : Assignment) (v : Variable) (w : Word) : Assignment :=
  if (lookupA a v).isSome then a.map (fun p => if p.1 = v then (v, w) else p)
  else a ++ [(v, w)]

/-- `CrosswordCreator.assignment_complete`. -/
def assignment_complete (cw : Crossword) (a : Assignment) : Bool :=
  cw.vars.all (fun v => (lookupA a v).isSome)

/-- The neighbour check inside `CrosswordCreator.consistent`: an unassigned
neighbour is skipped; an assigned one must agree on the overlap characters.
The source fetches the overlap through `get_definite_overlap`, which raises
when the table has no entry; for a well-formed crossword a neighbour always
has an entry, so the error branch is embedded as a trivially passing check. -/
def neighborOk (cw : Crossword) (a : Assignment) (x : Variable) (wx : Word)
    (y : Variable) : Bool :=
  match lookupA a y with
  | none => true
  | some wy =>
    match cw.overlaps x y with
    | some (oi, oj) => charAt wx oi == charAt wy oj
    | none => true

/-- The loop of `CrosswordCreator.consistent` over `assignment.items()`,
carrying the set of words seen so far. -/
def consistentGo (cw : Crossword) (a : Assignment) :
    List (Variable × Word) → List Word → Bool
  | [], _ => true
  | (x, wx) :: rest, seen =>
    if seen.contains wx then false
    else if wx.length != x.length then false
    else if (neighbors cw x).all (fun y => neighborOk cw a x wx y) then
      consistentGo cw a rest (wx :: seen)
    else false

/-- `CrosswordCreator.consistent`. -/
def consistent (cw : Crossword) (a : Assignment) : Bool :=
  consistentGo cw a a []

/-- The elimination count of `order_domain_values`: over the unassigned
neighbours of `var`, the number of their domain words that mismatch the
candidate word at the overlap.  As in `neighborOk`, the error branch of
`get_definite_overlap` is unreachable for well-formed puzzles. -/
def eliminatedCount (cw : Crossword) (d : Domains) (a : Assignment)
    (var : Variable) (w : Word) : Nat :=
  (((neighbors cw var).filter (fun v => (lookupA a v).isNone)).map (fun nb =>
    match cw.overlaps var nb with
    | some (oi, oj) =>
      ((d nb).filter (fun wn => !(charAt w oi == charAt wn oj))).length
    | none => 0)).sum

/-- Python strict string comparison `<`, lexicographic by code point. -/
def wordLt : Word → Word → Bool
  | [], [] => false
  | [], _ :: _ => true
  | _ :: _, [] => false
  | c1 :: t1, c2 :: t2 => if c1 = c2 then wordLt t1 t2 else decide (c1 < c2)

/-- Python tuple comparison `<` on `(count, word)` pairs, as used by `sorted`. -/
def keyLt (p q : Nat × Word) : Bool :=
  decide (p.1 < q.1) || (decide (p.1 = q.1) && wordLt p.2 q.2)

/-- Stable insertion into a sorted list of `(count, word)` pairs: the new pair
goes in front of the first element not strictly below it. -/
def insertSorted (p : Nat × Word) : List (Nat × Word) → List (Nat × Word)
  | [] => [p]
  | q :: rest => if keyLt q p then q :: insertSorted p rest else p :: q :: rest

/-- Python `sorted` on `(count, word)` tuples (stable, ascending). -/
def sortPairs : List (Nat × Word) → List (Nat × Word)
  | [] => []
  | p :: rest => insertSorted p (sortPairs rest)

/-- `CrosswordCreator.order_domain_values`. -/
def order_domain_values (cw : Crossword) (d : Domains) (var : Variable)
    (a : Assignment) : List Word :=
  (sortPairs ((d var).map (fun w => (eliminatedCount cw d a var w, w)))).map
    Prod.snd

/-- Stable insertion by count only (`list.sort(key=lambda x: x[0])`). -/
def insertByCount (p : Nat × Variable) :
    List (Nat × Variable) → List (Nat × Variable)
  | [] => [p]
  | q :: rest =>
    if q.1 < p.1 then q :: insertByCount p rest else p :: q :: rest

/-- Stable sort by count only. -/
def sortByCount : List (Nat × Variable) → List (Nat × Variable)
  | [] => []
  | p :: rest => insertByCount p (sortByCount rest)

/-- The degree tie-break loop of `select_unassigned_variable`: starting from
`(0, first)`, keep the first variable whose degree strictly exceeds the
current maximum. -/
def maxDegreeVar (cw : Crossword) (vs : List Variable) (v0 : Variable) : Variable :=
  (vs.foldl (fun best v =>
    if (neighbors cw v).length > best.1 then ((neighbors cw v).length, v) else best)
    (0, v0)).2

/-- `CrosswordCreator.select_unassigned_variable`.  The source indexes
`remaining_counts[0]`, which raises on an empty list; that happens only when
every variable is assigned, and `backtrack` never calls it in that state, so
the embedding returns a default variable there. -/
def select_unassigned_variable (cw : Crossword) (d : Domains) (a : Assignment) :
    Variable :=
  let remaining := (cw.vars.filter (fun v => (lookupA a v).isNone)).map
    (fun v => ((d v).length, v))
  let sorted := sortByCount remaining
  match sorted with
  | [] => ⟨0, 0, false, 0⟩
  | (minCount, v0) :: _ =>
    let varsMin := (sorted.filter (fun p => p.1 == minCount)).map Prod.snd
    if varsMin.length == 1 then v0
    else maxDegreeVar cw varsMin v0

/-- The `for word in self.order_domain_values(...)` loop of `backtrack`,
with the recursive call `bt` passed in.  The domain store argument is the
live `self.domains` at the start of the iteration.  Following the source:
on the failure of the nested `ac3` the loop continues with the mutated
store (the `continue` statement skips the restore); after a failed deeper
search it continues with the stored pre-attempt domains. -/
def tryWords (cw : Crossword) (acFuel : Nat)
    (bt : Domains → Assignment → Option (Option Assignment × Domains))
    (a : Assignment) (v : Variable) :
    Domains → List Word → Option (Option Assignment × Domains)
  | d, [] => some (none, d)
  | d, w :: rest =>
    if consistent cw (insertA a v w) then
      match ac3 cw acFuel (updateD d v [w]) none with
      | none => none
      | some (false, d2) => tryWords cw acFuel bt a v d2 rest
      | some (true, d2) =>
        match bt d2 (insertA a v w) with
        | none => none
        | some (some sol, d3) =>
          if sol.isEmpty then tryWords cw acFuel bt a v d rest
          else some (some sol, d3)
        | some (none, _) => tryWords cw acFuel bt a v d rest
    else tryWords cw acFuel bt a v d rest

/-- `CrosswordCreator.backtrack`, fuel-indexed; the result pairs the returned
value (`None` or an assignment) with the final state of `self.domains`. -/
def backtrack (cw : Crossword) : Nat → Domains → Assignment →
    Option (Option Assignment × Domains)
  | 0, _, _ => none
  | fuel + 1, d, a =>
    if assignment_complete cw a then some (some a, d)
    else
      tryWords cw (fuel + 1) (backtrack cw fuel) a
        (select_unassigned_variable cw d a) d
        (order_domain_values cw d (select_unassigned_variable cw d a) a)

/-- `CrosswordCreator.solve`: node consistency, one global `ac3` run whose
boolean result is discarded, then backtracking search from the empty
assignment. -/
def solve (cw : Crossword) (fuel : Nat) : Option (Option Assignment × Domains) :=
  match ac3 cw fuel (enforce_node_consistency (initialDomains cw)) none with
  | none => none
  | some (_, d1) => backtrack cw fuel d1 []

/-! ### A heap model of the worklist for the aliasing claim about `ac3`

The caller of `ac3(arcs)` passes a reference to a Python list object; the
source rebinds the local name to `arcs.copy()` and mutates only the copy.
To state that the object the caller passed is left unchanged, the lists are
placed in an explicit heap of numbered cells. -/

/-- A heap of list objects: cell contents plus the next fresh address. -/
structure ArcListHeap where
  data : Nat → List Arc
  next : Nat

/-- Read the list object at address `p`. -/
def heapGet (h : ArcListHeap) (p : Nat) : List Arc :=
  h.data p

/-- Overwrite the list object at address `p` (an in-place list mutation). -/
def heapSet (h : ArcListHeap) (p : Nat) (l : List Arc) : ArcListHeap :=
  ⟨fun q => if q = p then l else h.data q, h.next⟩

/-- Allocate a fresh list object holding `l`. -/
def heapAlloc (h : ArcListHeap) (l : List Arc) : ArcListHeap × Nat :=
  (⟨fun q => if q = h.next then l else h.data q, h.next + 1⟩, h.next)

/-- The `while` loop of `ac3` acting on the worklist object at address `p`:
`arcs.pop()` and `arcs.append(...)` are in-place mutations of that object. -/
def ac3LoopH (cw : Crossword) : Nat → Domains → ArcListHeap → Nat →
    Option (Bool × Domains × ArcListHeap)
  | 0, _, _, _ => none
  | fuel + 1, d, h, p =>
    match (heapGet h p).getLast? with
    | none => some (true, d, h)
    | some (x, y) =>
      let h1 := heapSet h p (heapGet h p).dropLast
      let r := revise cw d x y
      if r.1 then
        if (r.2 x).length = 0 then some (false, r.2, h1)
        else ac3LoopH cw fuel r.2 (heapSet h1 p (heapGet h1 p ++ enqueueArcs cw x y)) p
      else ac3LoopH cw fuel r.2 h1 p

/-- `ac3` with the caller passing the address of a list object (or `None`):
the local worklist is a freshly allocated object, either holding the full arc
set or a copy of the contents of the caller object (`arcs = arcs.copy()`). -/
def ac3H (cw : Crossword) (fuel : Nat) (d : Domains) (h : ArcListHeap)
    (argArcs : Option Nat) : Option (Bool × Domains × ArcListHeap) :=
  match argArcs with
  | none =>
    match heapAlloc h (get_all_arcs cw) with
    | (h1, p) => ac3LoopH cw fuel d h1 p
  | some q =>
    match heapAlloc h (heapGet h q) with
    | (h1, p) => ac3LoopH cw fuel d h1 p

/-! ### The spec-side seed of the nested AC-3 run in `backtrack` -/

/-- Modelled from the spec: the worklist the spec says the nested AC-3 run in
`backtrack` starts from, namely the arcs from the neighbours of `v` to `v`. -/
def spec_seed_arcs (cw : Crossword) (v : Variable) : List Arc :=
  (neighbors cw v).map (fun n => (n, v))

/-! ### Concrete puzzles

`exCw` is a three-slot puzzle (slots `exV`, `exU`, `exA` of lengths 2, 3, 4;
overlap constraints V.0 = U.0, V.1 = A.1, U.2 = A.2) whose word list makes the
initial store arc-consistent, makes the first candidate tried for `exV`
(namely "ab") fail the nested AC-3 run, and still admits the complete
consistent assignment V = "bc", U = "bze", A = "zcez".  `exCwS` is a small
solvable two-slot puzzle. -/

def exV : Variable := ⟨0, 0, false, 2⟩

def exU : Variable := ⟨1, 0, false, 3⟩

def exA : Variable := ⟨2, 0, false, 4⟩

def wab : Word := ['a', 'b']

def wbc : Word := ['b', 'c']

def wazd : Word := ['a', 'z', 'd']

def wbye : Word := ['b', 'y', 'e']

def wbze : Word := ['b', 'z', 'e']

def wzbez : Word := ['z', 'b', 'e', 'z']

def wybez : Word := ['y', 'b', 'e', 'z']

def wxbez : Word := ['x', 'b', 'e', 'z']

def wzcez : Word := ['z', 'c', 'e', 'z']

def wzcdz : Word := ['z', 'c', 'd', 'z']

def exOverlaps : Variable → Variable → Option (Nat × Nat) := fun p q =>
  if p = exV ∧ q = exU then some (0, 0)
  else if p = exU ∧ q = exV then some (0, 0)
  else if p = exV ∧ q = exA then some (1, 1)
  else if p = exA ∧ q = exV then some (1, 1)
  else if p = exU ∧ q = exA then some (2, 2)
  else if p = exA ∧ q = exU then some (2, 2)
  else none

def exCw : Crossword :=
  ⟨[exV, exU, exA],
   [wab, wbc, wazd, wbye, wbze, wzbez, wybez, wxbez, wzcez, wzcdz],
   exOverlaps⟩

/-- The node-consistent initial store of `exCw`. -/
def exD : Domains := enforce_node_consistency (initialDomains exCw)

/-- The store produced by the initial global `ac3` run of `solve` on `exCw`
(it prunes nothing: the initial store is already arc-consistent). -/
def exPre : Domains :=
  match ac3 exCw 60 exD none with
  | some (_, dd) => dd
  | none => exD

/-- The nested AC-3 run of `backtrack` for the first candidate `wab` of `exV`. -/
def exAttempt : Option (Bool × Domains) :=
  ac3 exCw 60 (updateD exPre exV [wab]) none

/-- The store that run leaves behind. -/
def exPolluted : Domains :=
  match exAttempt with
  | some (_, dd) => dd
  | none => exPre

/-- The satisfying assignment of `exCw` that the solver fails to find. -/
def exSol : Assignment := [(exV, wbc), (exU, wbze), (exA, wzcez)]

def exV2 : Variable := ⟨0, 0, true, 2⟩

def exU2 : Variable := ⟨0, 0, false, 2⟩

def wac : Word := ['a', 'c']

def exOverlapsS : Variable → Variable → Option (Nat × Nat) := fun p q =>
  if p = exV2 ∧ q = exU2 then some (0, 0)
  else if p = exU2 ∧ q = exV2 then some (0, 0)
  else none

def exCwS : Crossword := ⟨[exV2, exU2], [wab, wac], exOverlapsS⟩

/-- The assignment `solve` returns on `exCwS`. -/
def exSolS : Assignment := [(exV2, wab), (exU2, wac)]

/-- The final store of the successful `solve` run on `exCwS`. -/
def exDomS : Domains :=
  match solve exCwS 20 with
  | some (_, dd) => dd
  | none => initialDomains exCwS

/-- The node-consistent initial store of `exCwS`. -/
def exDS : Domains := enforce_node_consistency (initialDomains exCwS)

/-- A full `ac3` run on `exCwS` from the node-consistent store. -/
def exAcS : Option (Bool × Domains) := ac3Fuel exCwS 20 exDS (get_all_arcs exCwS)

/-- The store that run returns. -/
def exAcSDom : Domains :=
  match exAcS with
  | some (_, dd) => dd
  | none => exDS

/-- The state of that run at its returning iteration. -/
def exEnd : Option (Domains × List Arc) := ac3RunEnd exCwS 20 exDS (get_all_arcs exCwS)

/-- Its domain component. -/
def exEndDom : Domains :=
  match exEnd with
  | some (dd, _) => dd
  | none => exDS

/-- Its worklist component. -/
def exEndArcs : List Arc :=
  match exEnd with
  | some (_, l) => l
  | none => []

/-- A one-cell heap whose cell 0 holds a caller worklist for `exCwS`. -/
def exHeap : ArcListHeap := ⟨fun _ => [(exV2, exU2)], 1⟩

/-- The heap-model `ac3` run passing cell 0 as the `arcs` argument. -/
def exHeapRun : Option (Bool × Domains × ArcListHeap) :=
  ac3H exCwS 20 exDS exHeap (some 0)

/-- Its resulting store. -/
def exHeapDom : Domains :=
  match exHeapRun with
  | some (_, dd, _) => dd
  | none => exDS

/-- Its resulting heap. -/
def exHeapOut : ArcListHeap :=
  match exHeapRun with
  | some (_, _, hh) => hh
  | none => exHeap

/-! ## Lemmas about the store and `revise` -/

theorem updateD_self (d : Domains) (x : Variable) (ws : List Word) :
    updateD d x ws x = ws := by
  simp [updateD]

theorem updateD_other (d : Domains) (x : Variable) (ws : List Word) {v : Variable}
    (h : v ≠ x) : updateD d x ws v = d v := by
  simp [updateD, h]

theorem revise_eq_of_none {cw : Crossword} {d : Domains} {x y : Variable}
    (h : cw.overlaps x y = none) : revise cw d x y = (false, d) := by
  simp [revise, h]

theorem revise_snd_x {cw : Crossword} {d : Domains} {x y : Variable} {oi oj : Nat}
    (h : cw.overlaps x y = some (oi, oj)) :
    (revise cw d x y).2 x = (d x).filter (fun wx => hasSupport wx oi oj (d y)) := by
  simp [revise, h, updateD_self]

theorem revise_snd_other {cw : Crossword} {d : Domains} {x y v : Variable}
    (hv : v ≠ x) : (revise cw d x y).2 v = d v := by
  unfold revise
  cases h : cw.overlaps x y with
  | none => rfl
  | some p => cases p with
    | mk oi oj => simp [updateD, hv]

theorem revise_fst {cw : Crossword} {d : Domains} {x y : Variable} {oi oj : Nat}
    (h : cw.overlaps x y = some (oi, oj)) :
    (revise cw d x y).1 =
      (((d x).filter (fun wx => hasSupport wx oi oj (d y))).length != (d x).length) := by
  simp [revise, h]

theorem revise_false_filter_eq {cw : Crossword} {d : Domains} {x y : Variable}
    {oi oj : Nat} (ho : cw.overlaps x y = some (oi, oj))
    (h : (revise cw d x y).1 = false) :
    (d x).filter (fun wx => hasSupport wx oi oj (d y)) = d x := by
  have hf := revise_fst (d := d) ho
  rw [h] at hf
  have hlen : ((d x).filter (fun wx => hasSupport wx oi oj (d y))).length = (d x).length := by
    simpa using hf.symm
  exact List.Sublist.eq_of_length (List.filter_sublist _) hlen

theorem revise_false_frame {cw : Crossword} {d : Domains} {x y : Variable}
    (h : (revise cw d x y).1 = false) :
    ∀ v, (revise cw d x y).2 v = d v := by
  intro v
  by_cases hv : v = x
  · subst hv
    cases ho : cw.overlaps v y with
    | none => simp [revise_eq_of_none ho]
    | some p =>
      cases p with
      | mk oi oj =>
        rw [revise_snd_x ho]
        exact revise_false_filter_eq ho h
  · exact revise_snd_other hv

theorem revise_false_support {cw : Crossword} {d : Domains} {x y : Variable}
    {oi oj : Nat} (ho : cw.overlaps x y = some (oi, oj))
    (h : (revise cw d x y).1 = false) :
    ∀ wx ∈ d x, hasSupport wx oi oj (d y) = true :=
  List.filter_eq_self.mp (revise_false_filter_eq ho h)

/-! ## Claim C5: the contract of `revise` -/

/-- C5: for every pair of variables, if the puzzle records no overlap for
`(x, y)` then `revise x y` leaves every domain unchanged and returns false;
if an overlap `(oi, oj)` exists, it keeps in the domain of `x` exactly the
words with a matching partner in the current domain of `y`, leaves all other
domains unchanged, and returns true iff at least one word was removed. -/
theorem C5_revise_spec (cw : Crossword) (d : Domains) (x y : Variable) :
    (cw.overlaps x y = none → revise cw d x y = (false, d)) ∧
    (∀ oi oj, cw.overlaps x y = some (oi, oj) →
      (∀ w, w ∈ (revise cw d x y).2 x ↔
        w ∈ d x ∧ hasSupport w oi oj (d y) = true) ∧
      (∀ v, v ≠ x → (revise cw d x y).2 v = d v) ∧
      ((revise cw d x y).1 = true ↔ ∃ w ∈ d x, w ∉ (revise cw d x y).2 x)) := by
  refine ⟨fun h => revise_eq_of_none h, fun oi oj ho => ⟨?_, ?_, ?_⟩⟩
  · intro w
    rw [revise_snd_x ho]
    exact List.mem_filter
  · intro v hv
    exact revise_snd_other hv
  · rw [revise_fst ho, revise_snd_x ho]
    constructor
    · intro hne
      have hne' : ((d x).filter (fun wx => hasSupport wx oi oj (d y))).length ≠ (d x).length :=
        bne_iff_ne.mp hne
      have : ¬ ∀ w ∈ d x, hasSupport w oi oj (d y) = true := by
        intro hall
        exact hne' (by rw [List.filter_eq_self.mpr hall])
      push_neg at this
      obtain ⟨w, hw, hws⟩ := this
      refine ⟨w, hw, fun hmem => ?_⟩
      exact hws (List.mem_filter.mp hmem).2
    · rintro ⟨w, hw, hwnot⟩
      refine bne_iff_ne.mpr (fun hlen => ?_)
      have heq := List.Sublist.eq_of_length (List.filter_sublist _) hlen
      exact hwnot (by rw [heq]; exact hw)

/-- Witness for C5 at the concrete puzzle `exCw`: the pair `(exV, exV)` has no
overlap and `revise` is the identity there; the pair `(exA, exU)` overlaps at
`(2, 2)` and the membership and frame conclusions hold there. -/
theorem C5_revise_spec_witness :
    revise exCw exD exV exV = (false, exD) ∧
    (wzbez ∈ (revise exCw exD exA exU).2 exA ↔
      wzbez ∈ exD exA ∧ hasSupport wzbez 2 2 (exD exU) = true) ∧
    (revise exCw exD exA exU).2 exV = exD exV :=
  ⟨(C5_revise_spec exCw exD exV exV).1 (by decide),
   ((C5_revise_spec exCw exD exA exU).2 2 2 (by decide)).1 wzbez,
   ((C5_revise_spec exCw exD exA exU).2 2 2 (by decide)).2.1 exV (by decide)⟩

/-! ## Claim C7: `enforce_node_consistency` -/

/-- C7: after `enforce_node_consistency` the domain of every variable holds
exactly the initial candidate words whose length equals the variable length,
and the operation is idempotent: a second run changes no domain. -/
theorem C7_node_consistency (cw : Crossword) :
    (∀ v w, w ∈ enforce_node_consistency (initialDomains cw) v ↔
      w ∈ cw.words ∧ w.length = v.length) ∧
    (∀ d v, enforce_node_consistency (enforce_node_consistency d) v =
      enforce_node_consistency d v) := by
  constructor
  · intro v w
    simp [enforce_node_consistency, initialDomains, List.mem_filter]
  · intro d v
    simp [enforce_node_consistency, List.filter_filter]

/-- Witness for C7 at `exCw`: the length-4 word "zbez" lies in the pruned
domain of the length-4 slot `exA`, and the second run is a no-op there. -/
theorem C7_node_consistency_witness :
    (wzbez ∈ enforce_node_consistency (initialDomains exCw) exA ↔
      wzbez ∈ exCw.words ∧ wzbez.length = exA.length) ∧
    enforce_node_consistency (enforce_node_consistency exD) exA =
      enforce_node_consistency exD exA :=
  ⟨(C7_node_consistency exCw).1 exA wzbez, (C7_node_consistency exCw).2 exD exA⟩

/-! ## Claim C6: the return semantics of the `ac3` loop -/

/-- C6: when the `ac3` loop returns, its run reached a last state on which one
final iteration produced the result: the loop returns true exactly when the
worklist is exhausted (and then the store of the last state is returned
unchanged, and no state of the run made a domain-emptying revision), and it
returns false exactly at an iteration whose revision emptied the domain of
the popped arc head (nonempty before the revision), the mutated store being
returned at that very iteration. -/
theorem C6_ac3_return_semantics (cw : Crossword) (fuel : Nat) (d : Domains)
    (arcs : List Arc) (b : Bool) (d' : Domains) (d0 : Domains) (arcs0 : List Arc)
    (h : ac3Fuel cw fuel d arcs = some (b, d'))
    (hend : ac3RunEnd cw fuel d arcs = some (d0, arcs0)) :
    Reaches cw d arcs d0 arcs0 ∧ ac3Step cw d0 arcs0 = Sum.inr (b, d') ∧
    ((b = true ∧ arcs0 = [] ∧ d' = d0 ∧
      ∀ d1 arcs1, Reaches cw d arcs d1 arcs1 →
        ∀ e, ac3Step cw d1 arcs1 ≠ Sum.inr (false, e)) ∨
     (b = false ∧ ∃ x y, arcs0.getLast? = some (x, y) ∧
       (revise cw d0 x y).1 = true ∧ d' = (revise cw d0 x y).2 ∧
       d' x = [] ∧ d0 x ≠ [])) := by
  induction fuel generalizing d arcs with
  | zero => simp [ac3Fuel] at h
  | succ fuel ih =>
    cases hs : ac3Step cw d arcs with
    | inr res =>
      simp only [ac3Fuel, hs] at h
      simp only [ac3RunEnd, hs] at hend
      obtain ⟨hb, hd'⟩ : res.1 = b ∧ res.2 = d' := by
        cases res; simpa using h
      obtain ⟨hd0, harcs0⟩ : d = d0 ∧ arcs = arcs0 := by simpa using hend
      subst hd0; subst harcs0
      refine ⟨Reaches.refl d arcs, by rw [hs, ← hb, ← hd'], ?_⟩
      cases hl : arcs.getLast? with
      | none =>
        simp only [ac3Step, hl] at hs
        obtain ⟨hb', hd''⟩ : res.1 = true ∧ res.2 = d := by
          cases res; simpa using hs.symm
        left
        refine ⟨by rw [← hb, hb'], List.getLast?_eq_none_iff.mp hl,
          by rw [← hd', hd''], ?_⟩
        intro d1 arcs1 hr e
        cases hr with
        | refl =>
          intro hbad
          simp only [ac3Step, hl] at hbad
          simp at hbad
        | step hstep _ =>
          simp only [ac3Step, hl] at hstep
          simp at hstep
      | some p =>
        obtain ⟨x, y⟩ := p
        by_cases hrev : (revise cw d x y).1 = true
        · by_cases hlen : ((revise cw d x y).2 x).length = 0
          · simp only [ac3Step, hl, hrev, hlen, if_true] at hs
            obtain ⟨hb', hd''⟩ : res.1 = false ∧ res.2 = (revise cw d x y).2 := by
              cases res; simpa using hs.symm
            right
            refine ⟨by rw [← hb, hb'], x, y, rfl, hrev, by rw [← hd', hd''], ?_, ?_⟩
            · rw [← hd', hd'']
              exact List.length_eq_zero.mp hlen
            · obtain ⟨oi, oj, ho⟩ : ∃ oi oj, cw.overlaps x y = some (oi, oj) := by
                cases hov : cw.overlaps x y with
                | none => rw [revise_eq_of_none hov] at hrev; simp at hrev
                | some q => exact ⟨q.1, q.2, rfl⟩
              have hflag := revise_fst (d := d) ho
              rw [hrev] at hflag
              have hne := bne_iff_ne.mp hflag.symm
              intro hnil
              rw [hnil] at hne
              simp at hne
          · simp [ac3Step, hl, hrev, hlen] at hs
        · simp [ac3Step, hl, hrev] at hs
    | inl s =>
      obtain ⟨dnext, arcsnext⟩ := s
      simp only [ac3Fuel, hs] at h
      simp only [ac3RunEnd, hs] at hend
      obtain ⟨hr, hstep, hcond⟩ := ih dnext arcsnext h hend
      refine ⟨Reaches.step hs hr, hstep, ?_⟩
      cases hcond with
      | inl hc =>
        obtain ⟨hb, ha0, hd0, hrun⟩ := hc
        left
        refine ⟨hb, ha0, hd0, ?_⟩
        intro d1 arcs1 hreach e
        cases hreach with
        | refl =>
          intro hbad
          rw [hs] at hbad
          simp at hbad
        | step hstep' hrest =>
          rw [hs] at hstep'
          rw [Sum.inl.injEq, Prod.mk.injEq] at hstep'
          obtain ⟨h1, h2⟩ := hstep'
          subst h1; subst h2
          exact hrun _ _ hrest e
      | inr hc => exact Or.inr hc

/-! ## Membership lemmas for arcs and neighbours -/

theorem mem_neighbors {cw : Crossword} {u v : Variable} :
    u ∈ neighbors cw v ↔
      u ∈ cw.vars ∧ u ≠ v ∧ (cw.overlaps u v).isSome = true := by
  simp [neighbors, List.mem_filter, bne_iff_ne, and_assoc]

theorem mem_get_all_arcs {cw : Crossword} {x y : Variable} :
    (x, y) ∈ get_all_arcs cw ↔
      x ∈ cw.vars ∧ y ∈ cw.vars ∧ x ≠ y ∧ (cw.overlaps x y).isSome = true := by
  constructor
  · intro hm
    rw [get_all_arcs, List.mem_flatMap] at hm
    obtain ⟨a, ha, hm⟩ := hm
    rw [List.mem_map] at hm
    obtain ⟨b, hb, heq⟩ := hm
    rw [List.mem_filter] at hb
    obtain ⟨hbv, hcond⟩ := hb
    injection heq with h1 h2
    subst h1; subst h2
    simp only [Bool.and_eq_true, bne_iff_ne] at hcond
    exact ⟨ha, hbv, hcond.1, hcond.2⟩
  · rintro ⟨hx, hy, hne, hov⟩
    rw [get_all_arcs, List.mem_flatMap]
    refine ⟨x, hx, ?_⟩
    rw [List.mem_map]
    exact ⟨y, List.mem_filter.mpr ⟨hy, by simp [bne_iff_ne, hne, hov]⟩, rfl⟩

theorem mem_enqueueArcs {cw : Crossword} {x y : Variable} {p : Arc}
    (hm : p ∈ enqueueArcs cw x y) :
    p.1 ∈ cw.vars ∧ p.2 = x := by
  rw [enqueueArcs, List.mem_map] at hm
  obtain ⟨n, hn, hp⟩ := hm
  rw [List.mem_filter] at hn
  have hnv := (mem_neighbors.mp hn.1).1
  rw [← hp]
  exact ⟨hnv, rfl⟩

theorem enqueueArcs_mem {cw : Crossword} {x y n : Variable}
    (hnv : n ∈ cw.vars) (hnx : n ≠ x) (hov : (cw.overlaps n x).isSome = true)
    (hny : n ≠ y) : (n, x) ∈ enqueueArcs cw x y := by
  rw [enqueueArcs, List.mem_map]
  exact ⟨n, List.mem_filter.mpr ⟨mem_neighbors.mpr ⟨hnv, hnx, hov⟩,
    bne_iff_ne.mpr hny⟩, rfl⟩

/-! ## Well-formedness consequences -/

theorem wf_symm {cw : Crossword} (hwf : WFCrossword cw) {x y : Variable}
    {oi oj : Nat} (hx : x ∈ cw.vars) (hy : y ∈ cw.vars)
    (h : cw.overlaps x y = some (oi, oj)) : cw.overlaps y x = some (oj, oi) := by
  have hsym := hwf.2 x hx y hy
  rw [h] at hsym
  simpa using hsym

theorem wf_ne {cw : Crossword} (hwf : WFCrossword cw) {x y : Variable}
    (hx : x ∈ cw.vars) (h : (cw.overlaps x y).isSome = true) : x ≠ y := by
  intro he
  subst he
  rw [hwf.1 x hx] at h
  simp at h

theorem revise_true_overlap {cw : Crossword} {d : Domains} {x y : Variable}
    (h : (revise cw d x y).1 = true) :
    ∃ oi oj, cw.overlaps x y = some (oi, oj) := by
  cases ho : cw.overlaps x y with
  | none => rw [revise_eq_of_none ho] at h; simp at h
  | some q => exact ⟨q.1, q.2, rfl⟩

theorem arcOK_congr {cw : Crossword} {d1 d2 : Domains} (hpt : ∀ v, d1 v = d2 v)
    {x y : Variable} (h : ArcOK cw d2 x y) : ArcOK cw d1 x y := by
  intro oi oj ho wx hwx
  rw [hpt x] at hwx
  rw [hpt y]
  exact h oi oj ho wx hwx

/-! ## The step analysis of the `ac3` loop -/

theorem ac3Step_inl_cases {cw : Crossword} {d : Domains} {arcs : List Arc}
    {dnext : Domains} {arcsnext : List Arc}
    (hs : ac3Step cw d arcs = Sum.inl (dnext, arcsnext)) :
    ∃ x y, arcs.getLast? = some (x, y) ∧ dnext = (revise cw d x y).2 ∧
      (((revise cw d x y).1 = false ∧ arcsnext = arcs.dropLast) ∨
       ((revise cw d x y).1 = true ∧ ((revise cw d x y).2 x).length ≠ 0 ∧
        arcsnext = arcs.dropLast ++ enqueueArcs cw x y)) := by
  cases hl : arcs.getLast? with
  | none => simp [ac3Step, hl] at hs
  | some p =>
    obtain ⟨x, y⟩ := p
    refine ⟨x, y, rfl, ?_⟩
    cases hrev : (revise cw d x y).1 with
    | false =>
      simp only [ac3Step, hl, hrev, Bool.false_eq_true, if_false] at hs
      rw [Sum.inl.injEq, Prod.mk.injEq] at hs
      exact ⟨hs.1.symm, Or.inl ⟨rfl, hs.2.symm⟩⟩
    | true =>
      by_cases hlen : ((revise cw d x y).2 x).length = 0
      · simp [ac3Step, hl, hrev, hlen] at hs
      · simp only [ac3Step, hl, hrev, hlen, if_true, if_false, if_neg] at hs
        rw [Sum.inl.injEq, Prod.mk.injEq] at hs
        exact ⟨hs.1.symm, Or.inr ⟨rfl, hlen, hs.2.symm⟩⟩

/-! ## Preservation of the arc-consistency invariant -/

theorem inv_preserved {cw : Crossword} (hwf : WFCrossword cw) {d : Domains}
    {arcs : List Arc} {dnext : Domains} {arcsnext : List Arc}
    (hs : ac3Step cw d arcs = Sum.inl (dnext, arcsnext))
    (harcs : ∀ p ∈ arcs, p.1 ∈ cw.vars ∧ p.2 ∈ cw.vars)
    (hinv : ∀ x ∈ cw.vars, ∀ y ∈ cw.vars, (cw.overlaps x y).isSome = true →
      (x, y) ∈ arcs ∨ ArcOK cw d x y) :
    (∀ p ∈ arcsnext, p.1 ∈ cw.vars ∧ p.2 ∈ cw.vars) ∧
    (∀ x ∈ cw.vars, ∀ y ∈ cw.vars, (cw.overlaps x y).isSome = true →
      (x, y) ∈ arcsnext ∨ ArcOK cw dnext x y) := by
  obtain ⟨x, y, hl, hd, hcases⟩ := ac3Step_inl_cases hs
  have harr : arcs.dropLast ++ [(x, y)] = arcs :=
    List.dropLast_append_getLast? _ (by rw [hl]; rfl)
  have hxyarcs : (x, y) ∈ arcs := by
    rw [← harr]
    simp
  have hdrop_sub : ∀ p ∈ arcs.dropLast, p ∈ arcs := by
    intro p hp
    rw [← harr]
    exact List.mem_append.mpr (Or.inl hp)
  have hxv : x ∈ cw.vars := (harcs _ hxyarcs).1
  have hyv : y ∈ cw.vars := (harcs _ hxyarcs).2
  cases hcases with
  | inl hc =>
    obtain ⟨hrev, ha⟩ := hc
    have hfr : ∀ v, dnext v = d v := by
      intro v
      rw [hd]
      exact revise_false_frame hrev v
    constructor
    · intro p hp
      rw [ha] at hp
      exact harcs p (hdrop_sub p hp)
    · intro a hav b hbv hov
      cases hinv a hav b hbv hov with
      | inr hOK => exact Or.inr (arcOK_congr hfr hOK)
      | inl hmem =>
        rw [← harr] at hmem
        cases List.mem_append.mp hmem with
        | inl hrest => exact Or.inl (by rw [ha]; exact hrest)
        | inr hsingle =>
          simp only [List.mem_singleton, Prod.mk.injEq] at hsingle
          obtain ⟨hax, hby⟩ := hsingle
          subst hax; subst hby
          refine Or.inr ?_
          intro oi oj ho wx hwx
          rw [hfr a] at hwx
          rw [hfr b]
          exact revise_false_support ho hrev wx hwx
  | inr hc =>
    obtain ⟨hrev, hlen, ha⟩ := hc
    obtain ⟨oi, oj, ho⟩ := revise_true_overlap hrev
    have hxy : x ≠ y := wf_ne hwf hxv (by rw [ho]; rfl)
    have hdy : dnext y = d y := by
      rw [hd]
      exact revise_snd_other (Ne.symm hxy)
    have hdx : dnext x = (d x).filter (fun wx => hasSupport wx oi oj (d y)) := by
      rw [hd]
      exact revise_snd_x ho
    have hdother : ∀ v, v ≠ x → dnext v = d v := by
      intro v hv
      rw [hd]
      exact revise_snd_other hv
    constructor
    · intro p hp
      rw [ha] at hp
      cases List.mem_append.mp hp with
      | inl hrest => exact harcs p (hdrop_sub p hrest)
      | inr henq =>
        obtain ⟨h1, h2⟩ := mem_enqueueArcs henq
        exact ⟨h1, by rw [h2]; exact hxv⟩
    · intro a hav b hbv hov
      cases hinv a hav b hbv hov with
      | inl hmem =>
        rw [← harr] at hmem
        cases List.mem_append.mp hmem with
        | inl hrest =>
          exact Or.inl (by rw [ha]; exact List.mem_append.mpr (Or.inl hrest))
        | inr hsingle =>
          simp only [List.mem_singleton, Prod.mk.injEq] at hsingle
          obtain ⟨hax, hby⟩ := hsingle
          subst hax; subst hby
          refine Or.inr ?_
          intro oi' oj' ho' wx hwx
          rw [ho] at ho'
          injection ho' with hpair
          injection hpair with h1 h2
          subst h1; subst h2
          rw [hdx] at hwx
          rw [hdy]
          exact (List.mem_filter.mp hwx).2
      | inr hOK =>
        by_cases hbx : b = x
        · subst hbx
          by_cases hay : a = y
          · subst hay
            refine Or.inr ?_
            intro oi' oj' ho' wy hwy
            have hyx := wf_symm hwf hxv hyv ho
            rw [hyx] at ho'
            injection ho' with hpair
            injection hpair with h1 h2
            subst h1; subst h2
            rw [hdy] at hwy
            have hsup := hOK oj oi hyx wy hwy
            rw [hasSupport, List.any_eq_true] at hsup
            obtain ⟨wx, hwx, hchar⟩ := hsup
            have hkeep : hasSupport wx oi oj (d a) = true := by
              rw [hasSupport, List.any_eq_true]
              refine ⟨wy, hwy, ?_⟩
              rw [beq_iff_eq] at hchar ⊢
              exact hchar.symm
            rw [hdx, hasSupport, List.any_eq_true]
            exact ⟨wx, List.mem_filter.mpr ⟨hwx, hkeep⟩, hchar⟩
          · have haxne : a ≠ b := wf_ne hwf hav hov
            refine Or.inl ?_
            rw [ha]
            exact List.mem_append.mpr (Or.inr (enqueueArcs_mem hav haxne hov hay))
        · refine Or.inr ?_
          intro oi' oj' ho' wa hwa
          rw [hdother b hbx]
          by_cases hax : a = x
          · subst hax
            rw [hdx] at hwa
            exact hOK oi' oj' ho' wa (List.mem_filter.mp hwa).1
          · rw [hdother a hax] at hwa
            exact hOK oi' oj' ho' wa hwa

/-- Witness for C6: a concrete full `ac3` run on `exCwS` returns true, and the
final iteration sees the exhausted worklist. -/
theorem C6_ac3_return_semantics_witness :
    ac3Step exCwS exEndDom exEndArcs = Sum.inr (true, exAcSDom) :=
  (C6_ac3_return_semantics exCwS 20 exDS (get_all_arcs exCwS) true exAcSDom
    exEndDom exEndArcs rfl rfl).2.1

/-! ## Soundness of a successful `ac3` run -/

theorem ac3_sound_aux (cw : Crossword) (hwf : WFCrossword cw) :
    ∀ fuel (d : Domains) (arcs : List Arc) (d' : Domains),
    (∀ p ∈ arcs, p.1 ∈ cw.vars ∧ p.2 ∈ cw.vars) →
    (∀ x ∈ cw.vars, ∀ y ∈ cw.vars, (cw.overlaps x y).isSome = true →
      (x, y) ∈ arcs ∨ ArcOK cw d x y) →
    ac3Fuel cw fuel d arcs = some (true, d') →
    ∀ x ∈ cw.vars, ∀ y ∈ cw.vars, ArcOK cw d' x y := by
  intro fuel
  induction fuel with
  | zero =>
    intro d arcs d' _ _ h
    simp [ac3Fuel] at h
  | succ fuel ih =>
    intro d arcs d' harcs hinv h
    cases hs : ac3Step cw d arcs with
    | inr res =>
      simp only [ac3Fuel, hs] at h
      obtain ⟨hb, hd'⟩ : res.1 = true ∧ res.2 = d' := by
        cases res; simpa using h
      cases hl : arcs.getLast? with
      | none =>
        have hempty : arcs = [] := List.getLast?_eq_none_iff.mp hl
        have hdd : d = d' := by
          simp only [ac3Step, hl] at hs
          have hsd : res.2 = d := by
            cases res
            exact (And.right (by simpa using hs.symm))
          rw [← hd', hsd]
        subst hempty
        intro x hx y hy oi oj ho wx hwx
        cases hinv x hx y hy (by rw [ho]; rfl) with
        | inl hmem => simp at hmem
        | inr hOK =>
          rw [← hdd] at hwx ⊢
          exact hOK oi oj ho wx hwx
      | some p =>
        obtain ⟨x, y⟩ := p
        cases hrev : (revise cw d x y).1 with
        | false => simp [ac3Step, hl, hrev] at hs
        | true =>
          by_cases hlen : ((revise cw d x y).2 x).length = 0
          · simp only [ac3Step, hl, hrev, hlen, if_true] at hs
            have hfalse : res.1 = false := by
              cases res
              exact (And.left (by simpa using hs.symm))
            rw [hb] at hfalse
            simp at hfalse
          · simp [ac3Step, hl, hrev, hlen] at hs
    | inl s =>
      obtain ⟨dnext, arcsnext⟩ := s
      simp only [ac3Fuel, hs] at h
      obtain ⟨harcs2, hinv2⟩ := inv_preserved hwf hs harcs hinv
      exact ih dnext arcsnext d' harcs2 hinv2 h

/-! ## A run over arc-consistent domains is a no-op -/

theorem ac3Step_noop {cw : Crossword} {d : Domains} {arcs : List Arc}
    {x y : Variable} (hl : arcs.getLast? = some (x, y)) (hOK : ArcOK cw d x y) :
    ac3Step cw d arcs = Sum.inl (d, arcs.dropLast) := by
  cases ho : cw.overlaps x y with
  | none =>
    have hr : revise cw d x y = (false, d) := revise_eq_of_none ho
    simp [ac3Step, hl, hr]
  | some q =>
    obtain ⟨oi, oj⟩ := q
    have hfil : (d x).filter (fun wx => hasSupport wx oi oj (d y)) = d x :=
      List.filter_eq_self.mpr (hOK oi oj ho)
    have hr1 : (revise cw d x y).1 = false := by
      rw [revise_fst ho, hfil]
      simp
    have hr2 : (revise cw d x y).2 = d := by
      funext v
      exact revise_false_frame hr1 v
    simp [ac3Step, hl, hr1, hr2]

theorem ac3_noop_of_arcOK (cw : Crossword) :
    ∀ fuel (arcs : List Arc) (d : Domains),
    (∀ p ∈ arcs, ArcOK cw d p.1 p.2) → arcs.length < fuel →
    ac3Fuel cw fuel d arcs = some (true, d) := by
  intro fuel
  induction fuel with
  | zero =>
    intro arcs d _ h
    simp at h
  | succ fuel ih =>
    intro arcs d hOK hlen
    cases hl : arcs.getLast? with
    | none =>
      have hempty : arcs = [] := List.getLast?_eq_none_iff.mp hl
      subst hempty
      simp [ac3Fuel, ac3Step]
    | some p =>
      obtain ⟨x, y⟩ := p
      have harr : arcs.dropLast ++ [(x, y)] = arcs :=
        List.dropLast_append_getLast? _ (by rw [hl]; rfl)
      have hmem : (x, y) ∈ arcs := by
        rw [← harr]
        simp
      have hstep := ac3Step_noop hl (hOK _ hmem)
      simp only [ac3Fuel, hstep]
      apply ih
      · intro q hq
        refine hOK q ?_
        rw [← harr]
        exact List.mem_append.mpr (Or.inl hq)
      · have hne : arcs ≠ [] := by
          intro hnil
          rw [hnil] at hl
          simp at hl
        have hpos : 0 < arcs.length := List.length_pos.mpr hne
        rw [List.length_dropLast]
        omega

/-! ## Claim C4: a successful full `ac3` run yields an arc-consistent fixpoint -/

/-- C4: if `ac3` is run with the full arc set (`arcs = None`) and returns
true, the resulting store is arc-consistent for every ordered pair of
variables with an overlap: every remaining word in the domain of `x` has a
word in the domain of `y` matching it at the overlap characters (and by the
quantification over ordered pairs, symmetrically for `domain(y)`). -/
theorem C4_ac3_fixpoint (cw : Crossword) (hwf : WFCrossword cw) (fuel : Nat)
    (d d' : Domains) (h : ac3 cw fuel d none = some (true, d')) :
    ∀ x ∈ cw.vars, ∀ y ∈ cw.vars, ∀ oi oj, cw.overlaps x y = some (oi, oj) →
      ∀ wx ∈ d' x, hasSupport wx oi oj (d' y) = true := by
  have hrun : ac3Fuel cw fuel d (get_all_arcs cw) = some (true, d') := by
    simpa [ac3, initialWorklist] using h
  have hmain := ac3_sound_aux cw hwf fuel d (get_all_arcs cw) d'
    (fun p hp => by
      obtain ⟨h1, h2, _, _⟩ := mem_get_all_arcs.mp hp
      exact ⟨h1, h2⟩)
    (fun x hx y hy hov =>
      Or.inl (mem_get_all_arcs.mpr ⟨hx, hy, wf_ne hwf hx hov, hov⟩))
    hrun
  intro x hx y hy oi oj ho wx hwx
  exact hmain x hx y hy oi oj ho wx hwx

/-- Witness for C4: the node-consistent store of the concrete puzzle `exCw`
passes the full `ac3` run (which prunes nothing), and the fixpoint property
instantiates at the overlapping pair `(exV, exU)` and the word "ab". -/
theorem C4_ac3_fixpoint_witness :
    WFCrossword exCw ∧ hasSupport wab 0 0 (exPre exU) = true :=
  ⟨by decide,
   C4_ac3_fixpoint exCw (by decide) 60 exD exPre rfl exV (by decide) exU
     (by decide) 0 0 (by decide) wab (by decide)⟩

/-! ## Claim C8: propagation is idempotent -/

/-- C8: if a full `ac3` run has just returned true with store `d2`, a second
full run from `d2` removes nothing and returns true: it returns `d2` itself
(given fuel exceeding the full arc count, which is all the second run
consumes). -/
theorem C8_ac3_idempotent (cw : Crossword) (hwf : WFCrossword cw) (fuel : Nat)
    (d d' : Domains) (h : ac3 cw fuel d none = some (true, d'))
    (fuel2 : Nat) (hfuel2 : (get_all_arcs cw).length < fuel2) :
    ac3 cw fuel2 d' none = some (true, d') := by
  have hrun : ac3Fuel cw fuel d (get_all_arcs cw) = some (true, d') := by
    simpa [ac3, initialWorklist] using h
  have hfix := ac3_sound_aux cw hwf fuel d (get_all_arcs cw) d'
    (fun p hp => by
      obtain ⟨h1, h2, _, _⟩ := mem_get_all_arcs.mp hp
      exact ⟨h1, h2⟩)
    (fun x hx y hy hov =>
      Or.inl (mem_get_all_arcs.mpr ⟨hx, hy, wf_ne hwf hx hov, hov⟩))
    hrun
  show ac3Fuel cw fuel2 d' (initialWorklist cw none) = some (true, d')
  apply ac3_noop_of_arcOK cw fuel2 (get_all_arcs cw) d' ?_ hfuel2
  intro p hp
  obtain ⟨h1, h2, _, _⟩ := mem_get_all_arcs.mp hp
  exact hfix p.1 h1 p.2 h2

/-- Witness for C8: on `exCw` the first full run returns true with store
`exPre`, the full arc set has 6 arcs, and the second run with fuel 7 returns
`exPre` unchanged. -/
theorem C8_ac3_idempotent_witness :
    WFCrossword exCw ∧ (get_all_arcs exCw).length < 7 ∧
      ac3 exCw 7 exPre none = some (true, exPre) :=
  ⟨by decide, by decide,
   C8_ac3_idempotent exCw (by decide) 60 exD exPre rfl 7 (by decide)⟩

/-! ## Lemmas about assignments and `consistent` -/

theorem lookupA_mem {a : Assignment} {v : Variable} {w : Word}
    (h : lookupA a v = some w) : (v, w) ∈ a := by
  induction a with
  | nil => simp [lookupA] at h
  | cons p rest ih =>
    obtain ⟨u, wu⟩ := p
    rw [lookupA] at h
    by_cases hv : v = u
    · subst hv
      simp at h
      rw [← h]
      exact List.mem_cons_self _ _
    · rw [if_neg hv] at h
      exact List.mem_cons_of_mem _ (ih h)

theorem consistentGo_cons_true {cw : Crossword} {a : Assignment} {u : Variable}
    {wu : Word} {rest : List (Variable × Word)} {seen : List Word}
    (h : consistentGo cw a ((u, wu) :: rest) seen = true) :
    seen.contains wu = false ∧ wu.length = u.length ∧
    (neighbors cw u).all (fun y => neighborOk cw a u wu y) = true ∧
    consistentGo cw a rest (wu :: seen) = true := by
  rw [consistentGo] at h
  by_cases h1 : seen.contains wu = true
  · rw [if_pos h1] at h
    simp at h
  · have h1' : seen.contains wu = false := by simpa using h1
    rw [if_neg h1] at h
    by_cases h2 : (wu.length != u.length) = true
    · rw [if_pos h2] at h
      simp at h
    · rw [if_neg h2] at h
      have h2' : wu.length = u.length := by simpa using h2
      by_cases h3 : (neighbors cw u).all (fun y => neighborOk cw a u wu y) = true
      · rw [if_pos h3] at h
        exact ⟨h1', h2', h3, h⟩
      · rw [if_neg h3] at h
        simp at h

theorem consistentGo_each {cw : Crossword} {a : Assignment} :
    ∀ items seen, consistentGo cw a items seen = true →
    ∀ x wx, (x, wx) ∈ items →
      wx.length = x.length ∧
      ∀ y ∈ neighbors cw x, neighborOk cw a x wx y = true := by
  intro items
  induction items with
  | nil =>
    intro seen _ x wx hm
    simp at hm
  | cons p rest ih =>
    obtain ⟨u, wu⟩ := p
    intro seen h x wx hm
    obtain ⟨_, hlen, hall, hrest⟩ := consistentGo_cons_true h
    cases List.mem_cons.mp hm with
    | inl hhd =>
      injection hhd with he1 he2
      subst he1; subst he2
      exact ⟨hlen, List.all_eq_true.mp hall⟩
    | inr htl => exact ih (wu :: seen) hrest x wx htl

theorem consistentGo_nodup {cw : Crossword} {a : Assignment} :
    ∀ items seen, consistentGo cw a items seen = true →
    (items.map Prod.snd).Nodup ∧ ∀ w ∈ items.map Prod.snd, w ∉ seen := by
  intro items
  induction items with
  | nil =>
    intro seen _
    simp
  | cons p rest ih =>
    obtain ⟨u, wu⟩ := p
    intro seen h
    obtain ⟨hns, _, _, hrest⟩ := consistentGo_cons_true h
    obtain ⟨hnd, hnot⟩ := ih (wu :: seen) hrest
    have hwu_seen : wu ∉ seen := by simpa using hns
    constructor
    · rw [List.map_cons, List.nodup_cons]
      refine ⟨fun hmem => ?_, hnd⟩
      exact (hnot wu hmem) (List.mem_cons_self _ _)
    · intro w hw
      rw [List.map_cons, List.mem_cons] at hw
      cases hw with
      | inl hwwu => rw [hwwu]; exact hwu_seen
      | inr htl =>
        intro hws
        exact (hnot w htl) (List.mem_cons_of_mem _ hws)

/-! ## Soundness of `backtrack` -/

theorem tryWords_sound (cw : Crossword) (acFuel : Nat)
    (bt : Domains → Assignment → Option (Option Assignment × Domains))
    (a : Assignment) (v : Variable)
    (hbt : ∀ d2 a2 sol d3, consistent cw a2 = true →
      bt d2 a2 = some (some sol, d3) →
      consistent cw sol = true ∧ assignment_complete cw sol = true) :
    ∀ ws (d : Domains) sol dfin,
      tryWords cw acFuel bt a v d ws = some (some sol, dfin) →
      consistent cw sol = true ∧ assignment_complete cw sol = true := by
  intro ws
  induction ws with
  | nil =>
    intro d sol dfin h
    simp [tryWords] at h
  | cons w rest ih =>
    intro d sol dfin h
    rw [tryWords] at h
    by_cases hc : consistent cw (insertA a v w) = true
    · rw [if_pos hc] at h
      cases hac : ac3 cw acFuel (updateD d v [w]) none with
      | none =>
        simp only [hac] at h
        simp at h
      | some r =>
        obtain ⟨flag, d2⟩ := r
        simp only [hac] at h
        cases flag with
        | false => exact ih d2 sol dfin h
        | true =>
          cases hb : bt d2 (insertA a v w) with
          | none =>
            simp only [hb] at h
            simp at h
          | some rb =>
            obtain ⟨osol, d3⟩ := rb
            simp only [hb] at h
            cases osol with
            | none => exact ih d sol dfin h
            | some sol2 =>
              have h' : (if sol2.isEmpty = true then
                  tryWords cw acFuel bt a v d rest
                  else some (some sol2, d3)) = some (some sol, dfin) := h
              by_cases hemp : sol2.isEmpty = true
              · rw [if_pos hemp] at h'
                exact ih d sol dfin h'
              · rw [if_neg hemp] at h'
                have hsol : sol2 = sol ∧ d3 = dfin := by simpa using h'
                rw [← hsol.1]
                exact hbt d2 (insertA a v w) sol2 d3 hc hb
    · rw [if_neg hc] at h
      exact ih d sol dfin h

theorem backtrack_sound (cw : Crossword) :
    ∀ fuel (d : Domains) (a : Assignment) sol dfin,
      consistent cw a = true →
      backtrack cw fuel d a = some (some sol, dfin) →
      consistent cw sol = true ∧ assignment_complete cw sol = true := by
  intro fuel
  induction fuel with
  | zero =>
    intro d a sol dfin _ h
    simp [backtrack] at h
  | succ fuel ih =>
    intro d a sol dfin hca h
    rw [backtrack] at h
    by_cases hcomp : assignment_complete cw a = true
    · rw [if_pos hcomp] at h
      have hsa : a = sol := by
        have := (by simpa using h : some a = some sol ∧ d = dfin)
        simpa using this.1
      rw [← hsa]
      exact ⟨hca, hcomp⟩
    · rw [if_neg hcomp] at h
      exact tryWords_sound cw (fuel + 1) (backtrack cw fuel) a
        (select_unassigned_variable cw d a)
        (fun d2 a2 s d3 hc hb => ih d2 a2 s d3 hc hb)
        (order_domain_values cw d (select_unassigned_variable cw d a) a)
        d sol dfin h

/-! ## Claim C1: validity of a returned solution -/

/-- C1: if `solve` returns an assignment, then every variable of the
crossword is assigned a word (the dict maps it to exactly one word), all
assigned words are pairwise distinct, and for every ordered pair of
variables with an overlap `(oi, oj)` the assigned words agree at the overlap
characters. -/
theorem C1_solution_validity (cw : Crossword) (hwf : WFCrossword cw)
    (fuel : Nat) (a : Assignment) (dfin : Domains)
    (h : solve cw fuel = some (some a, dfin)) :
    (∀ v ∈ cw.vars, ∃ w, lookupA a v = some w) ∧
    (∀ x y wx wy, x ≠ y → lookupA a x = some wx → lookupA a y = some wy →
      wx ≠ wy) ∧
    (∀ x ∈ cw.vars, ∀ y ∈ cw.vars, ∀ oi oj, cw.overlaps x y = some (oi, oj) →
      ∀ wx wy, lookupA a x = some wx → lookupA a y = some wy →
        charAt wx oi = charAt wy oj) := by
  rw [solve] at h
  cases hac : ac3 cw fuel (enforce_node_consistency (initialDomains cw)) none with
  | none =>
    simp only [hac] at h
    simp at h
  | some r =>
    obtain ⟨flag, d1⟩ := r
    simp only [hac] at h
    obtain ⟨hcons, hcomp⟩ := backtrack_sound cw fuel d1 [] a dfin rfl h
    refine ⟨?_, ?_, ?_⟩
    · intro v hv
      have hvs := List.all_eq_true.mp hcomp v hv
      exact Option.isSome_iff_exists.mp hvs
    · intro x y wx wy hxy hlx hly hww
      have hnd := (consistentGo_nodup (a := a) a [] hcons).1
      have hmx := lookupA_mem hlx
      have hmy := lookupA_mem hly
      have heq := List.inj_on_of_nodup_map hnd hmx hmy (by rw [hww])
      exact hxy (congrArg Prod.fst heq)
    · intro x hx y hy oi oj ho wx wy hlx hly
      have hmx := lookupA_mem hlx
      have heach := consistentGo_each (a := a) a [] hcons x wx hmx
      have hyx : cw.overlaps y x = some (oj, oi) := wf_symm hwf hx hy ho
      have hyn : y ∈ neighbors cw x :=
        mem_neighbors.mpr ⟨hy, (wf_ne hwf hx (by rw [ho]; rfl)).symm,
          by rw [hyx]; rfl⟩
      have hok := heach.2 y hyn
      rw [neighborOk] at hok
      simp only [hly, ho] at hok
      exact beq_iff_eq.mp hok

/-- Witness for C1: `solve` succeeds on the two-slot puzzle `exCwS`, returning
the assignment V2 = "ab", U2 = "ac", whose words agree at the overlap. -/
theorem C1_solution_validity_witness :
    WFCrossword exCwS ∧ solve exCwS 20 = some (some exSolS, exDomS) ∧
      charAt wab 0 = charAt wac 0 :=
  ⟨by decide, rfl,
   (C1_solution_validity exCwS (by decide) 20 exSolS exDomS rfl).2.2 exV2
     (by decide) exU2 (by decide) 0 0 (by decide) wab wac (by decide) (by decide)⟩

/-! ## Claim C2: `solve` misses a satisfiable instance (code bug)

On `exCw` the first candidate "ab" for `exV` fails the nested AC-3 run, and
the `continue` in `backtrack` skips the restore of `self.domains`, so the
sibling candidate "bc" starts from the mutated store (the domain of `exV`
emptied, the c-words of `exA` pruned away) and fails as well; `solve`
returns `None` although a complete consistent assignment exists. -/

/-- C2 (refutation of completeness on the code): `solve` on `exCw` returns
`None`, while the assignment `exSol` is complete and consistent by the very
checks of the solver, and the clean sibling branch (the domain of `exV`
restricted to "bc" from the unpolluted store) passes AC-3. -/
theorem C2_solve_misses_satisfiable :
    (solve exCw 60).map Prod.fst = some none ∧
    assignment_complete exCw exSol = true ∧
    consistent exCw exSol = true ∧
    (ac3 exCw 60 (updateD exPre exV [wbc]) none).map Prod.fst = some true := by
  exact ⟨rfl, by decide, by decide, rfl⟩

/-! ## Claim C3: the store is not restored after a failed nested AC-3 run -/

/-- C3 (refutation on the code): on `exCw` the nested AC-3 run for the first
candidate "ab" of `exV` fails, the store it leaves behind differs from the
pre-attempt store (the domain of `exV` is emptied), and the candidate loop
continues with that mutated store rather than the pre-attempt one: the first
candidate really is "ab" tried by `backtrack` for the selected variable
`exV`, and the loop after the failed attempt is the loop over the remaining
candidates started from the polluted store. -/
theorem C3_domains_not_restored :
    exAttempt.map Prod.fst = some false ∧
    exPolluted exV = [] ∧
    exPre exV = [wab, wbc] ∧
    select_unassigned_variable exCw exPre [] = exV ∧
    order_domain_values exCw exPre exV [] = [wab, wbc] ∧
    tryWords exCw 60 (backtrack exCw 59) [] exV exPre [wab, wbc] =
      tryWords exCw 60 (backtrack exCw 59) [] exV exPolluted [wbc] := by
  exact ⟨rfl, by decide, by decide, by decide, by decide, rfl⟩

/-! ## Claim C9: the seed of the nested AC-3 run in `backtrack` -/

/-- C9 counterexample: `backtrack` calls `ac3` with no arcs argument, so the
nested run starts from the full arc set, which on the concrete puzzle `exCw`
differs from the arcs from the neighbours of the selected variable `exV` to
`exV`; in particular the full seed holds the arc `(exU, exA)`, which does not
touch `exV` at all. -/
theorem C9_seed_counterexample :
    initialWorklist exCw none = get_all_arcs exCw ∧
    get_all_arcs exCw ≠ spec_seed_arcs exCw exV ∧
    (exU, exA) ∈ initialWorklist exCw none ∧
    (exU, exA) ∉ spec_seed_arcs exCw exV := by
  exact ⟨rfl, by decide, by decide, by decide⟩

/-- C9 as amended: after a candidate passes the consistency check, the domain
of `v` is restricted to the singleton `[w]` and the nested AC-3 run is seeded
with the full arc set of the problem (`ac3` is called with no arcs argument),
not with the arcs from the neighbours of `v`. -/
theorem C9_singleton_and_full_seed (cw : Crossword) (acFuel : Nat)
    (bt : Domains → Assignment → Option (Option Assignment × Domains))
    (a : Assignment) (v : Variable) (d : Domains) (w : Word) (rest : List Word)
    (hc : consistent cw (insertA a v w) = true) :
    tryWords cw acFuel bt a v d (w :: rest) =
      match ac3Fuel cw acFuel (updateD d v [w]) (get_all_arcs cw) with
      | none => none
      | some (false, d2) => tryWords cw acFuel bt a v d2 rest
      | some (true, d2) =>
        match bt d2 (insertA a v w) with
        | none => none
        | some (some sol, d3) =>
          if sol.isEmpty then tryWords cw acFuel bt a v d rest
          else some (some sol, d3)
        | some (none, _) => tryWords cw acFuel bt a v d rest := by
  rw [tryWords, if_pos hc]
  rfl

/-- Witness for the amended C9 at the concrete puzzle `exCw`: the candidate
"ab" for `exV` passes the consistency check, and unfolding the loop through
the theorem computes the final result of the candidate loop. -/
theorem C9_singleton_and_full_seed_witness :
    consistent exCw (insertA [] exV wab) = true ∧
    (tryWords exCw 60 (backtrack exCw 59) [] exV exPre [wab, wbc]).map
      Prod.fst = some none := by
  refine ⟨by decide, ?_⟩
  rw [C9_singleton_and_full_seed exCw 60 (backtrack exCw 59) [] exV exPre wab
    [wbc] (by decide)]
  rfl

/-! ## Claim C10: `ac3` leaves the caller list object unchanged -/

theorem heapSet_other {h : ArcListHeap} {p q : Nat} {l : List Arc}
    (hq : q ≠ p) : (heapSet h p l).data q = h.data q := by
  simp [heapSet, hq]

theorem ac3LoopH_frame (cw : Crossword) :
    ∀ fuel (d : Domains) (h : ArcListHeap) (p : Nat) (b : Bool) (d' : Domains)
      (h' : ArcListHeap),
    ac3LoopH cw fuel d h p = some (b, d', h') →
    ∀ q, q ≠ p → h'.data q = h.data q := by
  intro fuel
  induction fuel with
  | zero =>
    intro d h p b d' h' hrun
    simp [ac3LoopH] at hrun
  | succ fuel ih =>
    intro d h p b d' h' hrun q hq
    rw [ac3LoopH] at hrun
    cases hl : (heapGet h p).getLast? with
    | none =>
      simp only [hl] at hrun
      have hh : h = h' := by
        have := (by simpa using hrun : true = b ∧ d = d' ∧ h = h')
        exact this.2.2
      rw [← hh]
    | some pa =>
      obtain ⟨x, y⟩ := pa
      simp only [hl] at hrun
      cases hrev : (revise cw d x y).1 with
      | true =>
        by_cases hlen : ((revise cw d x y).2 x).length = 0
        · simp only [hrev, hlen, if_true] at hrun
          have hh : heapSet h p (heapGet h p).dropLast = h' := by
            have := (by simpa using hrun :
              false = b ∧ (revise cw d x y).2 = d' ∧
                heapSet h p (heapGet h p).dropLast = h')
            exact this.2.2
          rw [← hh]
          exact heapSet_other hq
        · simp only [hrev, hlen, if_true, if_false, if_neg] at hrun
          have := ih _ _ _ _ _ _ hrun q hq
          rw [this, heapSet_other hq, heapSet_other hq]
      | false =>
        simp only [hrev, Bool.false_eq_true, if_false] at hrun
        have := ih _ _ _ _ _ _ hrun q hq
        rw [this, heapSet_other hq]

/-- C10: calling `ac3` with a caller-supplied worklist object leaves that
object unchanged: the source copies the list (`arcs = arcs.copy()`) into a
fresh object and every `pop` and `append` of the loop mutates only the fresh
object, so after the run the caller cell holds exactly its original arcs. -/
theorem C10_caller_arcs_preserved (cw : Crossword) (fuel : Nat) (d : Domains)
    (h : ArcListHeap) (q : Nat) (hq : q < h.next) (b : Bool) (d' : Domains)
    (h' : ArcListHeap) (hrun : ac3H cw fuel d h (some q) = some (b, d', h')) :
    heapGet h' q = heapGet h q := by
  have hneq : q ≠ h.next := Nat.ne_of_lt hq
  have hframe := ac3LoopH_frame cw fuel d
    ⟨fun i => if i = h.next then heapGet h q else h.data i, h.next + 1⟩
    h.next b d' h' hrun q hneq
  show h'.data q = h.data q
  rw [hframe]
  simp [hneq]

/-- Witness for C10: a concrete heap-model run on `exCwS` with the caller
worklist in cell 0 returns with cell 0 intact. -/
theorem C10_caller_arcs_preserved_witness :
    0 < exHeap.next ∧ heapGet exHeapOut 0 = heapGet exHeap 0 :=
  ⟨by decide,
   C10_caller_arcs_preserved exCwS 20 exDS exHeap 0 (by decide) true exHeapDom
     exHeapOut rfl⟩

end CrosswordCSP
